import Mathlib

/-!
Verification development for the playback scheduler and audio mixing engine
of the first-autodj application.

The scheduler (`src/utils/music/musicLibrary.ts`, class `MusicLibrary`) is
embedded as a pure state-transition system: JavaScript `Map`s become
association lists, JavaScript `Set`s of track paths become `Finset String`,
and `Math.random()`-driven index choices become an explicit `Nat` parameter
reduced modulo the candidate count (`Math.floor(Math.random() * len)` always
produces an index in `[0, len)`, and every such index is realised by some
parameter value).

The audio engine (`src/utils/audioContext.ts`, class `AudioManager`, the
normalization-aware revision of the file) is embedded with rational times,
volumes and gains; the Web Audio clock value `audioContext.currentTime` is
passed explicitly as a `now` argument, and the gain automation scheduled by
`linearRampToValueAtTime` is recorded as ramp data interpreted by an explicit
linear-interpolation function.  The loudness-to-gain formula, which lives in
real arithmetic, is embedded separately over `ℝ`.
-/

namespace DJ

/-- Track record as produced by the metadata extractor
(`TrackMetadata` in `src/utils/music/types.ts`); the opaque `file` handle
(the byte source) is omitted because no modelled operation inspects it. -/
structure TrackMetadata where
  title : String
  artist : String
  album : String
  duration : ℚ
  path : String
  folder : String
deriving DecidableEq

/-- Placeholder track used as the (unreachable) default of positional lookup
into a nonempty candidate list. -/
def defaultTrack : TrackMetadata := ⟨"", "", "", 0, "", ""⟩

/-- Lookup in an association list, modelling `Map.get` /`Map.has`. -/
def mapLookup {α : Type} : List (String × α) → String → Option α
  | [], _ => none
  | (k0, v0) :: rest, k => if k0 = k then some v0 else mapLookup rest k

/-- Update/insert in an association list, modelling `Map.set`. -/
def mapSet {α : Type} : List (String × α) → String → α → List (String × α)
  | [], k, v => [(k, v)]
  | (k0, v0) :: rest, k, v =>
    if k0 = k then (k, v) :: rest else (k0, v0) :: mapSet rest k v

/-- Removal from an association list, modelling `Map.delete`. -/
def mapErase {α : Type} : List (String × α) → String → List (String × α)
  | [], _ => []
  | (k0, v0) :: rest, k =>
    if k0 = k then rest else (k0, v0) :: mapErase rest k

/-- State of the `MusicLibrary` singleton (its private fields).  The
`filesMap` and the registered track-change callback are omitted: the former
only memoises `File` handles and the latter is an external notification
hook; neither influences any modelled field. -/
structure MusicLibraryState where
  tracks : List (String × List TrackMetadata)
  playedTracks : List (String × Finset String)
  defaultFolder : Option String
  currentTrack : Option TrackMetadata
  currentFolder : Option String
  onDeckTracks : List (String × TrackMetadata)
deriving DecidableEq

/-- The freshly constructed library: every collection empty. -/
def initialState : MusicLibraryState :=
  { tracks := [], playedTracks := [], defaultFolder := none,
    currentTrack := none, currentFolder := none, onDeckTracks := [] }

/-- Track list of a folder, empty when the folder is absent. -/
def tracksOf (st : MusicLibraryState) (folderName : String) : List TrackMetadata :=
  (mapLookup st.tracks folderName).getD []

/-- Play-history set of a folder, empty when the folder is absent
(`this.playedTracks.get(folderName) || new Set()`). -/
def histOf (st : MusicLibraryState) (folderName : String) : Finset String :=
  (mapLookup st.playedTracks folderName).getD ∅

/-- Per-folder body of `MusicLibrary.addFolder` (lines 70-88): store the
shuffled track list under the folder name, create an empty play-history set
only when none exists yet, and adopt the folder as default when no default
is set.  The Fisher-Yates shuffle of the ingested files is modelled by
taking the already shuffled list as the argument (a shuffle only permutes,
so every property proved for all lists covers every shuffle outcome).  The
asynchronous metadata preload it triggers is modelled by the separate
`setOnDeck` step. -/
def addFolder (st : MusicLibraryState) (folderName : String)
    (shuffledTracks : List TrackMetadata) : MusicLibraryState :=
  { st with
    tracks := mapSet st.tracks folderName shuffledTracks,
    playedTracks :=
      if (mapLookup st.playedTracks folderName).isSome then st.playedTracks
      else mapSet st.playedTracks folderName ∅,
    defaultFolder :=
      match st.defaultFolder with
      | none => some folderName
      | some d => some d }

/-- Effect of `preloadNextTrackInFolder` when the extraction succeeds and
was not cached: the extracted metadata for the upcoming track is parked in
`onDeckTracks`.  The extracted record is taken as an argument (extraction is
an external collaborator); in real runs its `path` equals the path of a
track of the folder, but no modelled claim needs that. -/
def setOnDeck (st : MusicLibraryState) (folderName : String)
    (meta : TrackMetadata) : MusicLibraryState :=
  { st with onDeckTracks := mapSet st.onDeckTracks folderName meta }

/-- Outcome reported by one `playRandomTrackFromFolder` call. -/
inductive PlayOutcome where
  | noTracks
  | played (t : TrackMetadata)
deriving DecidableEq

/-- Lines 140-142 of `playRandomTrackFromFolder`: the exhaustion reset —
the history set is cleared when its size has reached the playlist size
(`playedTracksSet.size >= tracks.length`). -/
def playedAfterReset (tracks : List TrackMetadata) (hist : Finset String) :
    Finset String :=
  if tracks.length ≤ hist.card then ∅ else hist

/-- Line 144: `tracks.filter(track => !playedTracksSet.has(track.path))`. -/
def unplayedOf (tracks : List TrackMetadata) (hist : Finset String) :
    List TrackMetadata :=
  tracks.filter (fun t => decide (t.path ∉ hist))

/-- Line 145: `unplayedTracks.length > 0 ? unplayedTracks : tracks`. -/
def availableOf (tracks unplayed : List TrackMetadata) :
    List TrackMetadata :=
  if 0 < unplayed.length then unplayed else tracks

/-- Lines 150-157: prefer the preloaded on-deck track over the random pick
`sel0` when the folder has one and its path is among the unplayed tracks,
removing it from the on-deck map in that case; returns the chosen track and
the resulting on-deck map. -/
def onDeckChoice (deck : List (String × TrackMetadata)) (folderName : String)
    (unplayed : List TrackMetadata) (sel0 : TrackMetadata) :
    TrackMetadata × List (String × TrackMetadata) :=
  match mapLookup deck folderName with
  | some pre =>
    if 0 < unplayed.length then
      if unplayed.any (fun t => t.path == pre.path) then
        (pre, mapErase deck folderName)
      else (sel0, deck)
    else (sel0, deck)
  | none => (sel0, deck)

/-- `MusicLibrary.playRandomTrackFromFolder` (lines 126-211), success path.
Empty or missing folder: the destructive "No tracks available" toast fires
and the method returns with no state change.  Otherwise: clear the history
when it has reached the playlist size, restrict to unplayed tracks (falling
back to the whole list when that filter is empty), pick
`availableTracks[randomIndex]`, prefer the preloaded on-deck track when it
is among the unplayed ones (deleting it from the on-deck map), record the
pick in the history, and — on the no-decode-failure path the claims are
about — update the current-track/current-folder pointers.  The random index
`Math.floor(Math.random() * availableTracks.length)` is modelled as
`r % availableTracks.length`. -/
def playRandomTrackFromFolder (st : MusicLibraryState) (folderName : String)
    (r : Nat) : MusicLibraryState × PlayOutcome :=
  match mapLookup st.tracks folderName with
  | none => (st, PlayOutcome.noTracks)
  | some tracks =>
    if tracks.length = 0 then (st, PlayOutcome.noTracks)
    else
      let played0 := (mapLookup st.playedTracks folderName).getD ∅
      let played1 := playedAfterReset tracks played0
      let unplayed := unplayedOf tracks played1
      let available := availableOf tracks unplayed
      let sel0 := available.getD (r % available.length) defaultTrack
      let selAndDeck := onDeckChoice st.onDeckTracks folderName unplayed sel0
      let sel := selAndDeck.1
      let played2 := insert sel.path played1
      ({ st with
          playedTracks := mapSet st.playedTracks folderName played2,
          onDeckTracks := selAndDeck.2,
          currentTrack := some sel,
          currentFolder := some folderName },
       PlayOutcome.played sel)

/-- `MusicLibrary.setDefaultFolder` (lines 233-241): reassign the default
playlist only when the named folder exists in the catalog. -/
def setDefaultFolder (st : MusicLibraryState) (folderName : String) :
    MusicLibraryState :=
  if (mapLookup st.tracks folderName).isSome then
    { st with defaultFolder := some folderName }
  else st

/-- `MusicLibrary.clearLibrary` (lines 259-268): every collection emptied,
every pointer reset. -/
def clearLibrary (_st : MusicLibraryState) : MusicLibraryState :=
  initialState

/-!
Audio mixing engine (`src/utils/audioContext.ts`, class `AudioManager`,
normalization-aware revision).  A decoded `AudioBuffer` is modelled by its
identity, duration, and the normalization gain that
`calculateNormalizationGain(analyzeTrackLoudness(buffer))` computes for it
when normalization is enabled — loudness is a pure function of the samples
and the result is cached per buffer, so it is a per-buffer constant here.
The real-valued formula behind that constant is embedded separately below
as `calculateNormalizationGain`.
-/

/-- Decoded audio buffer as seen by the engine. -/
structure AudioBuf where
  id : Nat
  duration : ℚ
  normGain : ℚ
deriving DecidableEq

/-- One scheduled Web Audio gain ramp: `setValueAtTime(v0, now)` followed by
`linearRampToValueAtTime(v1, now + dur)` for the enclosing schedule. -/
structure Ramp where
  v0 : ℚ
  v1 : ℚ
deriving DecidableEq

/-- The pair of gain ramps that the crossfade branch of `playTrack`
schedules: the outgoing voice fades out while the incoming voice fades in
over the same duration. -/
structure CrossfadeSchedule where
  outRamp : Ramp
  inRamp : Ramp
  dur : ℚ
deriving DecidableEq

/-- Value of a linear gain ramp at elapsed time `t` after its start, per the
Web Audio `linearRampToValueAtTime` definition: linear interpolation from
`(0, v0)` to `(dur, v1)`. -/
def rampValue (rp : Ramp) (dur t : ℚ) : ℚ :=
  rp.v0 + (rp.v1 - rp.v0) * (t / dur)

/-- State of the `AudioManager` singleton.  `hasContext` is whether the
constructor managed to create an `AudioContext`; source and gain nodes are
modelled by the buffer a source carries and by the scalar value of the
active gain stage; `crossfade` records the last pair of gain ramps that the
crossfade branch of `playTrack` scheduled.  Timer bookkeeping
(`trackEndTimeout`) and the registered end-of-track callback are external
notification machinery and are not modelled. -/
structure AudioState where
  hasContext : Bool
  currentSource : Option AudioBuf
  nextSource : Option AudioBuf
  currentBuffer : Option AudioBuf
  nextBuffer : Option AudioBuf
  crossfadeDuration : ℚ
  currentStartTime : ℚ
  currentPlaybackTime : ℚ
  currentDuration : ℚ
  volume : ℚ
  normalizationEnabled : Bool
  playing : Bool
  gainValue : ℚ
  crossfade : Option CrossfadeSchedule
deriving DecidableEq

/-- The normalization gain `playTrack` computes for an incoming buffer:
`calculateNormalizationGain` returns `1.0` when normalization is disabled
and the buffer's per-sample-data gain otherwise. -/
def normGainFor (st : AudioState) (b : AudioBuf) : ℚ :=
  if st.normalizationEnabled then b.normGain else 1

/-- `AudioManager.playTrack` (lines 354-475), immediate effects.  `none`
models the thrown "Audio context not initialized" error.  With a source
already playing and a positive crossfade duration, the crossfade branch
parks the incoming buffer in the `next` slots and schedules the two linear
gain ramps (outgoing `volume → 0`, incoming `0 → volume * normalizationGain`
over `crossfadeDuration`); the delayed `setTimeout` swap is a separate
future step not needed by the claims here.  Otherwise the buffer becomes
the current source, the gain node is set to `volume * normalizationGain`,
timing fields are reset against the engine clock `now`, and `playing`
becomes true. -/
def playTrack (st : AudioState) (b : AudioBuf) (startAtTime now : ℚ) :
    Option AudioState :=
  if !st.hasContext then none
  else
    let normalizationGain := normGainFor st b
    if st.currentSource.isSome ∧ st.playing ∧ 0 < st.crossfadeDuration then
      some { st with
        nextBuffer := some b,
        nextSource := some b,
        crossfade := some
          { outRamp := { v0 := st.volume, v1 := 0 },
            inRamp := { v0 := 0, v1 := st.volume * normalizationGain },
            dur := st.crossfadeDuration } }
    else
      some { st with
        currentSource := some b,
        currentBuffer := some b,
        gainValue := st.volume * normalizationGain,
        currentStartTime := now - startAtTime,
        currentDuration := b.duration,
        playing := true }

/-- `AudioManager.stop` (lines 518-542): both voices torn down, playback
flag cleared, stored offset reset to 0, both buffer references dropped. -/
def stop (st : AudioState) : AudioState :=
  { st with
    currentSource := none,
    nextSource := none,
    playing := false,
    currentPlaybackTime := 0,
    currentBuffer := none,
    nextBuffer := none }

/-- `AudioManager.seekTo` (lines 544-562): a no-op without a current buffer
or audio context; otherwise stop (preserving the buffer across the stop),
then restart the buffer at the seek position when it was playing, else just
store the offset. -/
def seekTo (st : AudioState) (time now : ℚ) : AudioState :=
  if st.currentBuffer = none ∨ !st.hasContext then st
  else
    let wasPlaying := st.playing
    let bufferToRestore := st.currentBuffer
    let st1 := { stop st with currentBuffer := bufferToRestore }
    if wasPlaying then
      match bufferToRestore with
      | some b =>
        match playTrack st1 b time now with
        | some st2 => st2
        | none => st1
      | none => st1
    else
      { st1 with currentPlaybackTime := time }

/-- `AudioManager.getCurrentTime` (lines 564-569): the stored offset when
not playing (or without a context), else elapsed engine-clock time since
the current start reference. -/
def getCurrentTime (st : AudioState) (now : ℚ) : ℚ :=
  if !st.playing || !st.hasContext then st.currentPlaybackTime
  else now - st.currentStartTime

/-- `AudioManager.isPlaying` (lines 593-595). -/
def isPlaying (st : AudioState) : Bool :=
  st.playing

/-- `AudioManager.calculateNormalizationGain` (lines 335-352) over the
reals: `1.0` when normalization is disabled, otherwise
`10^((targetLoudness - loudness)/20)` capped at `maxGain = 3.0`. -/
noncomputable def calculateNormalizationGain (enabled : Bool)
    (targetLoudness loudness : ℝ) : ℝ :=
  if enabled then
    min (Real.rpow 10 ((targetLoudness - loudness) / 20)) 3
  else 1

/-!
Fallback title heuristic (`src/utils/music/metadataExtractor.ts`,
`formatTitleFromFilename`, lines 78-89).  JavaScript strings are embedded as
`List Char`; each string primitive the function uses is given its own
embedding below.
-/

/-- Effect of the extension-stripping replace on line 79 restated without
its regex: when the string ends in a dot followed by one or more characters
none of which is a dot or a slash, that final dot and everything after it
are removed; otherwise the string is unchanged.  (The character class of
the source regex is `[^/.]`.) -/
def dropExtension (cs : List Char) : List Char :=
  let rev := cs.reverse
  let run := rev.takeWhile (fun c => decide (c ≠ '.' ∧ c ≠ '/'))
  match rev.drop run.length with
  | '.' :: rest => if run.isEmpty then cs else rest.reverse
  | _ => cs

/-- Effect of `title.replace(/[_-]/g, " ")`: every underscore or hyphen
becomes a space. -/
def sepToSpace (cs : List Char) : List Char :=
  cs.map (fun c => if c = '-' ∨ c = '_' then ' ' else c)

/-- Accumulator-passing core of `String.prototype.split(" - ")`: splits at
each leftmost non-overlapping occurrence of the three-character separator,
keeping empty pieces, exactly as the JavaScript method does. -/
def splitDashSepAux : List Char → List Char → List (List Char)
  | [], acc => [acc.reverse]
  | ' ' :: '-' :: ' ' :: rest, acc => acc.reverse :: splitDashSepAux rest []
  | c :: rest, acc => splitDashSepAux rest (c :: acc)

/-- JavaScript `title.split(" - ")`. -/
def splitDashSep (cs : List Char) : List (List Char) :=
  splitDashSepAux cs []

/-- Accumulator-passing core of `String.prototype.split(" ")` (single-space
separator, empty pieces kept). -/
def splitSpaceAux : List Char → List Char → List (List Char)
  | [], acc => [acc.reverse]
  | c :: rest, acc =>
    if c = ' ' then acc.reverse :: splitSpaceAux rest []
    else splitSpaceAux rest (c :: acc)

/-- JavaScript `title.split(" ")`. -/
def splitSpace (cs : List Char) : List (List Char) :=
  splitSpaceAux cs []

/-- JavaScript `word.charAt(0).toUpperCase() + word.slice(1).toLowerCase()`
(for the ASCII data at hand, `toUpperCase`/`toLowerCase` agree with
`Char.toUpper`/`Char.toLower`); on the empty word both halves are empty. -/
def capitalizeWord : List Char → List Char
  | [] => []
  | c :: rest => Char.toUpper c :: rest.map Char.toLower

/-- `formatTitleFromFilename` (lines 78-89): strip the extension, turn
underscores and hyphens into spaces, drop a leading "artist - " segment when
one survives (it never does, since the separator hyphen was just replaced),
and capitalize each space-separated word. -/
def formatTitleFromFilename (filename : String) : String :=
  let t1 := dropExtension filename.toList
  let t2 := sepToSpace t1
  let parts := splitDashSep t2
  let t3 :=
    if 2 ≤ parts.length then List.intercalate [' ', '-', ' '] (parts.drop 1)
    else t2
  let words := splitSpace t3
  String.mk (List.intercalate [' '] (words.map capitalizeWord))

/-!
Derived notions used to state the scheduler claims.
-/

/-- Identifiers (paths) of a track list. -/
def pathsOf (ts : List TrackMetadata) : List String :=
  ts.map (fun t => t.path)

/-- Iterated selection: run `playRandomTrackFromFolder` once per random
seed in `rs`, threading the state and collecting the selected tracks (calls
answered with `noTracks` select nothing). -/
def runPlays : MusicLibraryState → String → List Nat →
    MusicLibraryState × List TrackMetadata
  | st, _, [] => (st, [])
  | st, f, r :: rs =>
    match playRandomTrackFromFolder st f r with
    | (st1, PlayOutcome.played t) =>
      let rest := runPlays st1 f rs
      (rest.1, t :: rest.2)
    | (st1, PlayOutcome.noTracks) =>
      let rest := runPlays st1 f rs
      (rest.1, rest.2)

/-- Library states reachable by scheduler operations from the fresh
library: ingestion of a folder name not currently in the catalog, track
selection (which includes the exhaustion reset), metadata preload,
default-folder change, and library clear. -/
inductive Reachable : MusicLibraryState → Prop
  | init : Reachable initialState
  | ingest (st : MusicLibraryState) (f : String) (ts : List TrackMetadata) :
      Reachable st → mapLookup st.tracks f = none → Reachable (addFolder st f ts)
  | play (st : MusicLibraryState) (f : String) (r : Nat) :
      Reachable st → Reachable (playRandomTrackFromFolder st f r).1
  | preload (st : MusicLibraryState) (f : String) (t : TrackMetadata) :
      Reachable st → Reachable (setOnDeck st f t)
  | setDefault (st : MusicLibraryState) (f : String) :
      Reachable st → Reachable (setDefaultFolder st f)
  | clear (st : MusicLibraryState) :
      Reachable st → Reachable (clearLibrary st)

/-!
Helper lemmas about the association-list map operations.
-/

theorem mapLookup_mapSet_self {α : Type} (m : List (String × α)) (k : String)
    (v : α) : mapLookup (mapSet m k v) k = some v := by
  induction m with
  | nil => simp [mapLookup, mapSet]
  | cons kv rest ih =>
    obtain ⟨k0, v0⟩ := kv
    by_cases h : k0 = k
    · simp [mapLookup, mapSet, h]
    · simp [mapLookup, mapSet, h, ih]

theorem mapLookup_mapSet_ne {α : Type} (m : List (String × α))
    (k k' : String) (v : α) (h : k' ≠ k) :
    mapLookup (mapSet m k v) k' = mapLookup m k' := by
  have h' : k ≠ k' := fun hk => h hk.symm
  induction m with
  | nil => simp [mapLookup, mapSet, h']
  | cons kv rest ih =>
    obtain ⟨k0, v0⟩ := kv
    by_cases h0 : k0 = k
    · subst h0
      simp [mapLookup, mapSet, h']
    · by_cases h1 : k0 = k'
      · simp [mapLookup, mapSet, h0, h1, h]
      · simp [mapLookup, mapSet, h0, h1, ih]

theorem mem_unplayedOf (ts : List TrackMetadata) (hist : Finset String)
    (t : TrackMetadata) :
    t ∈ unplayedOf ts hist ↔ t ∈ ts ∧ t.path ∉ hist := by
  simp [unplayedOf]

theorem pathsOf_unplayedOf (ts : List TrackMetadata) (hist : Finset String)
    (p : String) :
    p ∈ pathsOf (unplayedOf ts hist) ↔ p ∈ pathsOf ts ∧ p ∉ hist := by
  constructor
  · intro hp
    obtain ⟨t, ht, rfl⟩ := List.mem_map.mp hp
    obtain ⟨ht1, ht2⟩ := (mem_unplayedOf ts hist t).mp ht
    exact ⟨List.mem_map_of_mem _ ht1, ht2⟩
  · rintro ⟨hp, hnot⟩
    obtain ⟨t, ht, rfl⟩ := List.mem_map.mp hp
    exact List.mem_map_of_mem _ ((mem_unplayedOf ts hist t).mpr ⟨ht, hnot⟩)

theorem pathsOf_toFinset_card (ts : List TrackMetadata)
    (hnd : (pathsOf ts).Nodup) :
    (pathsOf ts).toFinset.card = ts.length := by
  rw [List.toFinset_card_of_nodup hnd]
  simp [pathsOf]

theorem unplayedOf_ne_nil (ts : List TrackMetadata) (hist : Finset String)
    (hnd : (pathsOf ts).Nodup) (hlt : hist.card < ts.length) :
    unplayedOf ts hist ≠ [] := by
  intro hemp
  have hall : ∀ t ∈ ts, t.path ∈ hist := by
    intro t ht
    by_contra hnot
    have hmem : t ∈ unplayedOf ts hist := (mem_unplayedOf ts hist t).mpr ⟨ht, hnot⟩
    rw [hemp] at hmem
    exact absurd hmem (List.not_mem_nil t)
  have hsub2 : (pathsOf ts).toFinset ⊆ hist := by
    intro p hp
    obtain ⟨t, ht, rfl⟩ := List.mem_map.mp (List.mem_toFinset.mp hp)
    exact hall t ht
  have hcard := Finset.card_le_card hsub2
  rw [pathsOf_toFinset_card ts hnd] at hcard
  omega

theorem getD_mod_mem {α : Type} (l : List α) (n : Nat) (d : α) (h : l ≠ []) :
    l.getD (n % l.length) d ∈ l := by
  have hlen : 0 < l.length := List.length_pos.mpr h
  have hlt : n % l.length < l.length := Nat.mod_lt _ hlen
  rw [List.getD_eq_getElem l d hlt]
  apply List.getElem_mem

theorem onDeckChoice_mem (deck : List (String × TrackMetadata))
    (f : String) (unplayed : List TrackMetadata) (sel0 : TrackMetadata)
    (h0 : sel0 ∈ unplayed) :
    (onDeckChoice deck f unplayed sel0).1.path ∈ pathsOf unplayed := by
  have hsel0 : sel0.path ∈ pathsOf unplayed := List.mem_map_of_mem _ h0
  unfold onDeckChoice
  cases hlk : mapLookup deck f with
  | none => exact hsel0
  | some pre =>
    by_cases hu : 0 < unplayed.length
    · by_cases ha : unplayed.any (fun t => t.path == pre.path) = true
      · simp only [hu, ha, if_true]
        obtain ⟨t, ht, hte⟩ := List.any_eq_true.mp ha
        have hte' : t.path = pre.path := by simpa using hte
        rw [← hte']
        exact List.mem_map_of_mem _ ht
      · simp only [ha, if_true, if_false, Bool.false_eq_true, hu]
        exact hsel0
    · simp only [hu, if_false]
      exact hsel0

theorem play_eq_some (st : MusicLibraryState) (f : String) (r : Nat)
    (ts : List TrackMetadata) (hts : mapLookup st.tracks f = some ts)
    (hne : ¬ ts.length = 0) :
    playRandomTrackFromFolder st f r =
      (let played1 := playedAfterReset ts (histOf st f)
       let unplayed := unplayedOf ts played1
       let available := availableOf ts unplayed
       let sel := (onDeckChoice st.onDeckTracks f unplayed
         (available.getD (r % available.length) defaultTrack)).1
       let deck := (onDeckChoice st.onDeckTracks f unplayed
         (available.getD (r % available.length) defaultTrack)).2
       ({ st with
           playedTracks := mapSet st.playedTracks f (insert sel.path played1),
           onDeckTracks := deck,
           currentTrack := some sel,
           currentFolder := some f },
        PlayOutcome.played sel)) := by
  unfold playRandomTrackFromFolder
  rw [hts]
  simp only [hne, if_false, histOf]

theorem play_step (st : MusicLibraryState) (f : String) (r : Nat)
    (ts : List TrackMetadata) (hts : mapLookup st.tracks f = some ts)
    (hnd : (pathsOf ts).Nodup) (hlt : (histOf st f).card < ts.length) :
    ∃ t st1,
      playRandomTrackFromFolder st f r = (st1, PlayOutcome.played t)
        ∧ t.path ∈ pathsOf ts ∧ t.path ∉ histOf st f
        ∧ st1.tracks = st.tracks
        ∧ histOf st1 f = insert t.path (histOf st f) := by
  have hne : ¬ ts.length = 0 := by omega
  have hreset : playedAfterReset ts (histOf st f) = histOf st f := by
    unfold playedAfterReset
    rw [if_neg (by omega)]
  have hune : unplayedOf ts (histOf st f) ≠ [] :=
    unplayedOf_ne_nil ts _ hnd hlt
  have hupos : 0 < (unplayedOf ts (histOf st f)).length :=
    List.length_pos.mpr hune
  have havail : availableOf ts (unplayedOf ts (histOf st f))
      = unplayedOf ts (histOf st f) := by
    unfold availableOf
    rw [if_pos hupos]
  simp only [play_eq_some st f r ts hts hne, hreset, havail]
  refine ⟨_, _, rfl, ?_, ?_, rfl, ?_⟩
  · have hmem := onDeckChoice_mem st.onDeckTracks f _ _
      (getD_mod_mem (unplayedOf ts (histOf st f)) r defaultTrack hune)
    exact ((pathsOf_unplayedOf ts (histOf st f) _).mp hmem).1
  · have hmem := onDeckChoice_mem st.onDeckTracks f _ _
      (getD_mod_mem (unplayedOf ts (histOf st f)) r defaultTrack hune)
    exact ((pathsOf_unplayedOf ts (histOf st f) _).mp hmem).2
  · simp [histOf, mapLookup_mapSet_self]

theorem play_step_exhausted (st : MusicLibraryState) (f : String) (r : Nat)
    (ts : List TrackMetadata) (hts : mapLookup st.tracks f = some ts)
    (hpos : 0 < ts.length) (hfull : ts.length ≤ (histOf st f).card) :
    ∃ t st1,
      playRandomTrackFromFolder st f r = (st1, PlayOutcome.played t)
        ∧ histOf st1 f = {t.path} := by
  have hne : ¬ ts.length = 0 := by omega
  have hreset : playedAfterReset ts (histOf st f) = ∅ := by
    unfold playedAfterReset
    rw [if_pos hfull]
  simp only [play_eq_some st f r ts hts hne, hreset]
  refine ⟨_, _, rfl, ?_⟩
  simp [histOf, mapLookup_mapSet_self]

theorem runPlays_spec (f : String) (ts : List TrackMetadata)
    (hnd : (pathsOf ts).Nodup) :
    ∀ (rs : List Nat) (st : MusicLibraryState),
      mapLookup st.tracks f = some ts →
      histOf st f ⊆ (pathsOf ts).toFinset →
      (histOf st f).card + rs.length = ts.length →
      ((runPlays st f rs).2.map (fun t => t.path)).Nodup
        ∧ ((runPlays st f rs).2.map (fun t => t.path)).toFinset
            = (pathsOf ts).toFinset \ histOf st f
        ∧ (runPlays st f rs).2.length = rs.length
        ∧ mapLookup (runPlays st f rs).1.tracks f = some ts
        ∧ histOf (runPlays st f rs).1 f = (pathsOf ts).toFinset := by
  intro rs
  induction rs with
  | nil =>
    intro st hts hsub hcard
    simp only [List.length_nil] at hcard
    have hfull : histOf st f = (pathsOf ts).toFinset := by
      apply Finset.eq_of_subset_of_card_le hsub
      rw [pathsOf_toFinset_card ts hnd]
      omega
    simp only [runPlays]
    exact ⟨List.nodup_nil, by simp [hfull], rfl, hts, hfull⟩
  | cons r rs ih =>
    intro st hts hsub hcard
    have hlt : (histOf st f).card < ts.length := by
      simp only [List.length_cons] at hcard
      omega
    obtain ⟨t, st1, heq, hmem, hnotin, htr, hhist⟩ :=
      play_step st f r ts hts hnd hlt
    have hrun : runPlays st f (r :: rs)
        = ((runPlays st1 f rs).1, t :: (runPlays st1 f rs).2) := by
      simp only [runPlays, heq]
    have hts1 : mapLookup st1.tracks f = some ts := by rw [htr]; exact hts
    have hmem' : t.path ∈ (pathsOf ts).toFinset := List.mem_toFinset.mpr hmem
    have hsub1 : histOf st1 f ⊆ (pathsOf ts).toFinset := by
      rw [hhist]
      exact Finset.insert_subset hmem' hsub
    have hcard1 : (histOf st1 f).card + rs.length = ts.length := by
      rw [hhist, Finset.card_insert_of_not_mem hnotin]
      simp only [List.length_cons] at hcard
      omega
    obtain ⟨ihnd, ihset, ihlen, ihtr, ihhist⟩ := ih st1 hts1 hsub1 hcard1
    rw [hrun]
    refine ⟨?_, ?_, ?_, ihtr, ihhist⟩
    · simp only [List.map_cons]
      refine List.nodup_cons.mpr ⟨?_, ihnd⟩
      intro hin
      have hin' : t.path ∈ ((runPlays st1 f rs).2.map (fun t => t.path)).toFinset :=
        List.mem_toFinset.mpr hin
      rw [ihset, hhist] at hin'
      exact (Finset.mem_sdiff.mp hin').2 (Finset.mem_insert_self _ _)
    · simp only [List.map_cons, List.toFinset_cons]
      rw [ihset, hhist]
      ext p
      simp only [Finset.mem_insert, Finset.mem_sdiff]
      constructor
      · rintro (rfl | ⟨hpS, hpno⟩)
        · exact ⟨hmem', hnotin⟩
        · exact ⟨hpS, fun hph => hpno (Or.inr hph)⟩
      · rintro ⟨hpS, hphist⟩
        by_cases hpt : p = t.path
        · exact Or.inl hpt
        · exact Or.inr ⟨hpS, fun hph => hph.elim hpt hphist⟩
    · simp [ihlen]

theorem play_post (st : MusicLibraryState) (f : String) (r : Nat)
    (ts : List TrackMetadata) (hts : mapLookup st.tracks f = some ts)
    (hne : ¬ ts.length = 0) :
    ∃ sel : TrackMetadata,
      (playRandomTrackFromFolder st f r).1.tracks = st.tracks
        ∧ histOf (playRandomTrackFromFolder st f r).1 f
            = insert sel.path (playedAfterReset ts (histOf st f))
        ∧ ∀ g, g ≠ f →
            histOf (playRandomTrackFromFolder st f r).1 g = histOf st g := by
  simp only [play_eq_some st f r ts hts hne]
  refine ⟨(onDeckChoice st.onDeckTracks f
      (unplayedOf ts (playedAfterReset ts (histOf st f)))
      ((availableOf ts (unplayedOf ts (playedAfterReset ts (histOf st f)))).getD
        (r % (availableOf ts
          (unplayedOf ts (playedAfterReset ts (histOf st f)))).length)
        defaultTrack)).1, trivial, ?_, ?_⟩
  · simp [histOf, mapLookup_mapSet_self]
  · intro g hg
    simp [histOf, mapLookup_mapSet_ne _ _ _ _ hg]

theorem play_hist_bound (st : MusicLibraryState) (f0 : String) (r : Nat)
    (ih : ∀ f, (histOf st f).card ≤ (tracksOf st f).length) :
    ∀ f, (histOf (playRandomTrackFromFolder st f0 r).1 f).card
      ≤ (tracksOf (playRandomTrackFromFolder st f0 r).1 f).length := by
  intro f
  cases hts : mapLookup st.tracks f0 with
  | none =>
    have hid : playRandomTrackFromFolder st f0 r = (st, PlayOutcome.noTracks) := by
      unfold playRandomTrackFromFolder
      rw [hts]
    rw [hid]
    exact ih f
  | some ts =>
    by_cases hne : ts.length = 0
    · have hid : playRandomTrackFromFolder st f0 r = (st, PlayOutcome.noTracks) := by
        unfold playRandomTrackFromFolder
        rw [hts]
        simp [hne]
      rw [hid]
      exact ih f
    · obtain ⟨sel, htr, hhist, hother⟩ := play_post st f0 r ts hts hne
      by_cases hf : f = f0
      · subst hf
        have htrof : tracksOf (playRandomTrackFromFolder st f r).1 f = ts := by
          simp [tracksOf, htr, hts]
        rw [hhist, htrof]
        unfold playedAfterReset
        by_cases hfull : ts.length ≤ (histOf st f).card
        · rw [if_pos hfull]
          have h1 := Finset.card_insert_le sel.path (∅ : Finset String)
          simp only [Finset.card_empty] at h1
          omega
        · rw [if_neg hfull]
          have h1 := Finset.card_insert_le sel.path (histOf st f)
          omega
      · rw [hother f hf]
        have htrof : tracksOf (playRandomTrackFromFolder st f0 r).1 f
            = tracksOf st f := by
          simp [tracksOf, htr]
        rw [htrof]
        exact ih f

/-!
Claim theorems.
-/

/-- Claim C3: for every measured loudness `L` and target loudness `T`, the
computed normalization gain is `clamp(10^((T - L)/20), 0, 3.0)` when
normalization is enabled (the lower clamp bound coincides with the plain
cap at 3.0 because the power is never negative), and is exactly `1.0`
whenever normalization is disabled, regardless of `L`. -/
theorem normalization_clamp (enabled : Bool) (T L : ℝ) :
    calculateNormalizationGain enabled T L =
      if enabled then max 0 (min (Real.rpow 10 ((T - L) / 20)) 3) else 1 := by
  unfold calculateNormalizationGain
  cases enabled with
  | false => simp
  | true =>
    simp only [if_true]
    rw [max_eq_right]
    exact le_min (Real.rpow_nonneg (by norm_num) _) (by norm_num)

/-- Claim C9: on the filename "artist-name---song_title.mp3" the fallback
title heuristic yields "Artist Name   Song Title": every space-separated
word starts with an uppercase letter and the result differs from the raw
filename. -/
theorem fallback_title_heuristic :
    formatTitleFromFilename "artist-name---song_title.mp3"
        ≠ "artist-name---song_title.mp3"
      ∧ ((splitSpace
            (formatTitleFromFilename "artist-name---song_title.mp3").toList).all
          (fun w => w.isEmpty || (w.headD ' ').isUpper)) = true
      ∧ formatTitleFromFilename "artist-name---song_title.mp3"
          = "Artist Name   Song Title" := by
  decide

/-- Claim C6: `seekTo` leaves the `isPlaying` flag exactly as it found it,
for playing and non-playing starting states alike (including the
no-current-buffer and no-audio-context early returns). -/
theorem seek_preserves_play_state (st : AudioState) (time now : ℚ) :
    isPlaying (seekTo st time now) = isPlaying st := by
  rcases hb : st.currentBuffer with _ | b
  · simp [seekTo, hb, isPlaying]
  · cases hc : st.hasContext
    · simp [seekTo, hb, hc, isPlaying]
    · cases hp : st.playing
      · simp [seekTo, hb, hc, hp, isPlaying, stop]
      · simp [seekTo, hb, hc, hp, isPlaying, stop, playTrack, normGainFor]

/-- Claim C7: selecting from a playlist with zero tracks (absent from the
catalog or present with an empty track list) reports that no tracks are
available and changes nothing: the returned state is the input state, so
play-history, current-track and current-folder pointers all stay as they
were and no selection is recorded. -/
theorem empty_playlist_noop (st : MusicLibraryState) (f : String) (r : Nat)
    (h : tracksOf st f = []) :
    playRandomTrackFromFolder st f r = (st, PlayOutcome.noTracks) := by
  unfold playRandomTrackFromFolder
  cases hl : mapLookup st.tracks f with
  | none => rfl
  | some ts =>
    have hts : ts = [] := by simpa [tracksOf, hl] using h
    subst hts
    simp

theorem empty_playlist_noop_witness :
    playRandomTrackFromFolder initialState "Rock" 0
      = (initialState, PlayOutcome.noTracks) :=
  empty_playlist_noop initialState "Rock" 0 (by decide)

/-- Claim C10: for a name that is not a playlist of the catalog,
`setDefaultFolder` is a complete no-op — the default playlist and every
other scheduler field are unchanged (hence the default is only ever
reassigned to an existing playlist). -/
theorem set_default_absent_noop (st : MusicLibraryState) (name : String)
    (h : mapLookup st.tracks name = none) :
    setDefaultFolder st name = st := by
  simp [setDefaultFolder, h]

theorem set_default_absent_noop_witness :
    setDefaultFolder initialState "Jazz" = initialState :=
  set_default_absent_noop initialState "Jazz" (by decide)

/-- Claim C8 counterexample: in the idle engine state (no current buffer,
for example right after `stop()` or before any track was loaded) the engine
is not playing, yet `seekTo 5` does not store the offset — `getCurrentTime`
still answers 0, because `seekTo` returns early when no current buffer
exists. -/
theorem seek_idle_counterexample :
    ¬ (getCurrentTime
        (seekTo
          { hasContext := true, currentSource := none, nextSource := none,
            currentBuffer := none, nextBuffer := none, crossfadeDuration := 2,
            currentStartTime := 0, currentPlaybackTime := 0,
            currentDuration := 0, volume := 1, normalizationEnabled := true,
            playing := false, gainValue := 1, crossfade := none }
          5 0) 0 = 5) := by
  decide

/-- Claim C8 as amended: when the engine is not playing but a current
buffer is loaded (for example while paused) and the audio context is
initialized, `seekTo t` just stores `t` as the playback offset, so a
subsequent `getCurrentTime` returns `t`, for every `t`. -/
theorem seek_when_paused_updates_offset (st : AudioState) (t now now2 : ℚ)
    (hp : st.playing = false) (hb : st.currentBuffer ≠ none)
    (hc : st.hasContext = true) :
    getCurrentTime (seekTo st t now) now2 = t := by
  rcases hb' : st.currentBuffer with _ | b
  · exact absurd hb' hb
  · simp [seekTo, hb', hc, hp, getCurrentTime, stop]

theorem rampValue_out (V D t : ℚ) :
    rampValue { v0 := V, v1 := 0 } D t = V * (1 - t / D) := by
  unfold rampValue; ring

theorem rampValue_in (G D t : ℚ) :
    rampValue { v0 := 0, v1 := G } D t = G * (t / D) := by
  unfold rampValue; ring

theorem rampValue_out_antitone (V D t1 t2 : ℚ) (hD : 0 < D) (hV : 0 ≤ V)
    (h12 : t1 ≤ t2) :
    rampValue { v0 := V, v1 := 0 } D t2
      ≤ rampValue { v0 := V, v1 := 0 } D t1 := by
  rw [rampValue_out, rampValue_out]
  have h' : t1 / D ≤ t2 / D := by gcongr
  exact mul_le_mul_of_nonneg_left (by linarith) hV

theorem rampValue_in_monotone (G D t1 t2 : ℚ) (hD : 0 < D) (hG : 0 ≤ G)
    (h12 : t1 ≤ t2) :
    rampValue { v0 := 0, v1 := G } D t1
      ≤ rampValue { v0 := 0, v1 := G } D t2 := by
  rw [rampValue_in, rampValue_in]
  have h' : t1 / D ≤ t2 / D := by gcongr
  exact mul_le_mul_of_nonneg_left h' hG

theorem rampValue_out_end (V D : ℚ) (hD : D ≠ 0) :
    rampValue { v0 := V, v1 := 0 } D D = 0 := by
  rw [rampValue_out]; field_simp

theorem rampValue_in_end (G D : ℚ) (hD : D ≠ 0) :
    rampValue { v0 := 0, v1 := G } D D = G := by
  rw [rampValue_in]; field_simp

theorem normGainFor_nonneg (st : AudioState) (b : AudioBuf)
    (hg : 0 ≤ b.normGain) : 0 ≤ normGainFor st b := by
  unfold normGainFor
  by_cases h : st.normalizationEnabled
  · simpa [h] using hg
  · simp [h]

/-- Claim C2: a `playTrack` call that starts a crossfade (a voice already
playing, positive crossfade duration `D`, starting volume `V`) schedules
exactly the two linear ramps of the source: the outgoing voice's gain at
elapsed time `t ∈ [0, D]` is `V * (1 - t/D)` and the incoming voice's gain
is `V * g * (t/D)`, with `g` the normalization gain computed for the
incoming buffer; the outgoing ramp is monotonically decreasing and the
incoming one monotonically increasing on `[0, D]`, ending at `0` and
`V * g` respectively at `t = D`. -/
theorem crossfade_gain_law (st : AudioState) (b : AudioBuf)
    (startAt now : ℚ) (hc : st.hasContext = true)
    (hs : st.currentSource.isSome = true) (hp : st.playing = true)
    (hD : 0 < st.crossfadeDuration) (hV : 0 ≤ st.volume)
    (hg : 0 ≤ b.normGain) :
    ∃ st2, playTrack st b startAt now = some st2
      ∧ st2.crossfade = some
          { outRamp := { v0 := st.volume, v1 := 0 },
            inRamp := { v0 := 0, v1 := st.volume * normGainFor st b },
            dur := st.crossfadeDuration }
      ∧ (∀ t, 0 ≤ t → t ≤ st.crossfadeDuration →
          rampValue { v0 := st.volume, v1 := 0 } st.crossfadeDuration t
              = st.volume * (1 - t / st.crossfadeDuration)
            ∧ rampValue { v0 := 0, v1 := st.volume * normGainFor st b }
                st.crossfadeDuration t
              = st.volume * normGainFor st b * (t / st.crossfadeDuration))
      ∧ (∀ t1 t2, 0 ≤ t1 → t1 ≤ t2 → t2 ≤ st.crossfadeDuration →
          rampValue { v0 := st.volume, v1 := 0 } st.crossfadeDuration t2
              ≤ rampValue { v0 := st.volume, v1 := 0 } st.crossfadeDuration t1
            ∧ rampValue { v0 := 0, v1 := st.volume * normGainFor st b }
                st.crossfadeDuration t1
              ≤ rampValue { v0 := 0, v1 := st.volume * normGainFor st b }
                  st.crossfadeDuration t2)
      ∧ rampValue { v0 := st.volume, v1 := 0 } st.crossfadeDuration
          st.crossfadeDuration = 0
      ∧ rampValue { v0 := 0, v1 := st.volume * normGainFor st b }
          st.crossfadeDuration st.crossfadeDuration
          = st.volume * normGainFor st b := by
  have hg' : 0 ≤ normGainFor st b := normGainFor_nonneg st b hg
  have hG : 0 ≤ st.volume * normGainFor st b := mul_nonneg hV hg'
  have hplay : playTrack st b startAt now = some
      { st with
        nextBuffer := some b,
        nextSource := some b,
        crossfade := some
          { outRamp := { v0 := st.volume, v1 := 0 },
            inRamp := { v0 := 0, v1 := st.volume * normGainFor st b },
            dur := st.crossfadeDuration } } := by
    simp [playTrack, hc, hs, hp, hD]
  refine ⟨_, hplay, rfl, ?_, ?_, ?_, ?_⟩
  · intro t _ _
    exact ⟨rampValue_out _ _ _, rampValue_in _ _ _⟩
  · intro t1 t2 _ h12 _
    exact ⟨rampValue_out_antitone _ _ _ _ hD hV h12,
           rampValue_in_monotone _ _ _ _ hD hG h12⟩
  · exact rampValue_out_end _ _ (ne_of_gt hD)
  · exact rampValue_in_end _ _ (ne_of_gt hD)

theorem crossfade_gain_law_witness :
    ∃ st2, playTrack
        { hasContext := true, currentSource := some ⟨0, 200, 1⟩,
          nextSource := none, currentBuffer := some ⟨0, 200, 1⟩,
          nextBuffer := none, crossfadeDuration := 2, currentStartTime := 0,
          currentPlaybackTime := 0, currentDuration := 200, volume := 1,
          normalizationEnabled := false, playing := true, gainValue := 1,
          crossfade := none }
        ⟨1, 180, 1⟩ 0 0 = some st2
      ∧ st2.crossfade = some
          { outRamp := { v0 := 1, v1 := 0 },
            inRamp := { v0 := 0, v1 := 1 * 1 },
            dur := 2 }
      ∧ (∀ t : ℚ, 0 ≤ t → t ≤ 2 →
          rampValue { v0 := 1, v1 := 0 } 2 t = 1 * (1 - t / 2)
            ∧ rampValue { v0 := 0, v1 := 1 * 1 } 2 t = 1 * 1 * (t / 2))
      ∧ (∀ t1 t2 : ℚ, 0 ≤ t1 → t1 ≤ t2 → t2 ≤ 2 →
          rampValue { v0 := 1, v1 := 0 } 2 t2
              ≤ rampValue { v0 := 1, v1 := 0 } 2 t1
            ∧ rampValue { v0 := 0, v1 := 1 * 1 } 2 t1
              ≤ rampValue { v0 := 0, v1 := 1 * 1 } 2 t2)
      ∧ rampValue { v0 := 1, v1 := 0 } 2 2 = 0
      ∧ rampValue { v0 := 0, v1 := 1 * 1 } 2 2 = 1 * 1 := by
  have h := crossfade_gain_law
    { hasContext := true, currentSource := some ⟨0, 200, 1⟩,
      nextSource := none, currentBuffer := some ⟨0, 200, 1⟩,
      nextBuffer := none, crossfadeDuration := 2, currentStartTime := 0,
      currentPlaybackTime := 0, currentDuration := 200, volume := 1,
      normalizationEnabled := false, playing := true, gainValue := 1,
      crossfade := none }
    ⟨1, 180, 1⟩ 0 0 rfl rfl rfl (by norm_num) (by norm_num) (by norm_num)
  simpa [normGainFor] using h

/-- Claim C1: for a playlist of N distinct-identifier tracks, a window of
N consecutive successful selections that starts a rotation (empty
play-history, as right after ingestion or an exhaustion reset) selects
each of the N tracks exactly once, whatever the random seeds: the selected
identifiers are a permutation of the playlist's identifiers. -/
theorem no_repeat_until_exhaustion (st : MusicLibraryState) (f : String)
    (ts : List TrackMetadata) (rs : List Nat)
    (hts : mapLookup st.tracks f = some ts)
    (hnd : (pathsOf ts).Nodup)
    (h0 : histOf st f = ∅)
    (hlen : rs.length = ts.length) :
    ((runPlays st f rs).2.map (fun t => t.path)).Perm (pathsOf ts) := by
  obtain ⟨hnodup, hset, _, _, _⟩ :=
    runPlays_spec f ts hnd rs st hts
      (by rw [h0]; exact Finset.empty_subset _)
      (by rw [h0]; simpa using hlen)
  apply List.perm_of_nodup_nodup_toFinset_eq hnodup hnd
  rw [hset, h0, Finset.sdiff_empty]

theorem no_repeat_until_exhaustion_witness :
    ((runPlays
        (addFolder initialState "Rock"
          [⟨"a", "x", "Rock", 0, "Rock/a.mp3", "Rock"⟩,
           ⟨"b", "y", "Rock", 0, "Rock/b.mp3", "Rock"⟩])
        "Rock" [0, 0]).2.map (fun t => t.path)).Perm
      (pathsOf
        [⟨"a", "x", "Rock", 0, "Rock/a.mp3", "Rock"⟩,
         ⟨"b", "y", "Rock", 0, "Rock/b.mp3", "Rock"⟩]) :=
  no_repeat_until_exhaustion _ "Rock" _ [0, 0]
    (by decide) (by decide) (by decide) (by decide)

/-- Claim C4: in the same full-rotation window, immediately after the N-th
selection the play-history has size N; whatever random seed the (N+1)-th
call uses, it selects a track (the history having been cleared first
because its size reached the playlist size) and leaves the history as
exactly that track's identifier — a singleton. -/
theorem exhaustion_reset_exact (st : MusicLibraryState) (f : String)
    (ts : List TrackMetadata) (rs : List Nat)
    (hts : mapLookup st.tracks f = some ts)
    (hnd : (pathsOf ts).Nodup)
    (h0 : histOf st f = ∅)
    (hlen : rs.length = ts.length)
    (hpos : 0 < ts.length) :
    (histOf (runPlays st f rs).1 f).card = ts.length
      ∧ ∀ r, ∃ t st2,
          playRandomTrackFromFolder (runPlays st f rs).1 f r
              = (st2, PlayOutcome.played t)
            ∧ histOf st2 f = {t.path} := by
  obtain ⟨_, _, _, htr, hhist⟩ :=
    runPlays_spec f ts hnd rs st hts
      (by rw [h0]; exact Finset.empty_subset _)
      (by rw [h0]; simpa using hlen)
  have hcard : (histOf (runPlays st f rs).1 f).card = ts.length := by
    rw [hhist, pathsOf_toFinset_card ts hnd]
  exact ⟨hcard, fun r =>
    play_step_exhausted _ f r ts htr hpos (le_of_eq hcard.symm)⟩

theorem exhaustion_reset_exact_witness :
    (histOf
        (runPlays
          (addFolder initialState "Rock"
            [⟨"a", "x", "Rock", 0, "Rock/a.mp3", "Rock"⟩,
             ⟨"b", "y", "Rock", 0, "Rock/b.mp3", "Rock"⟩])
          "Rock" [0, 0]).1 "Rock").card
        = ([⟨"a", "x", "Rock", 0, "Rock/a.mp3", "Rock"⟩,
            ⟨"b", "y", "Rock", 0, "Rock/b.mp3", "Rock"⟩]
            : List TrackMetadata).length
      ∧ ∀ r, ∃ t st2,
          playRandomTrackFromFolder
              (runPlays
                (addFolder initialState "Rock"
                  [⟨"a", "x", "Rock", 0, "Rock/a.mp3", "Rock"⟩,
                   ⟨"b", "y", "Rock", 0, "Rock/b.mp3", "Rock"⟩])
                "Rock" [0, 0]).1 "Rock" r
              = (st2, PlayOutcome.played t)
            ∧ histOf st2 "Rock" = {t.path} :=
  exhaustion_reset_exact _ "Rock" _ [0, 0]
    (by decide) (by decide) (by decide) (by decide) (by decide)

/-- Claim C5 as amended: along every operation sequence in which each
ingestion targets a folder name not currently in the catalog (selection,
exhaustion reset, preload, default change and library clear are
unrestricted), every playlist's play-history size is bounded by the
playlist's current track count.  Re-ingesting an existing name keeps the
old history while replacing the track list, which can break the bound —
see the counterexample. -/
theorem history_le_playlist (st : MusicLibraryState) (h : Reachable st) :
    ∀ f, (histOf st f).card ≤ (tracksOf st f).length := by
  induction h with
  | init =>
    intro f
    simp [initialState, histOf, tracksOf, mapLookup]
  | ingest st0 f0 ts hr hfresh ih =>
    intro f
    by_cases hf : f = f0
    · subst hf
      have h0 : (histOf st0 f).card = 0 := by
        have hb := ih f
        simp only [tracksOf, hfresh, Option.getD_none, List.length_nil,
          Nat.le_zero] at hb
        exact hb
      have hafter : (histOf (addFolder st0 f ts) f).card = 0 := by
        unfold addFolder histOf
        by_cases hd : (mapLookup st0.playedTracks f).isSome
        · simpa [histOf, hd] using h0
        · simp [hd, mapLookup_mapSet_self]
      rw [hafter]
      exact Nat.zero_le _
    · have ht : tracksOf (addFolder st0 f0 ts) f = tracksOf st0 f := by
        simp [addFolder, tracksOf, mapLookup_mapSet_ne _ _ _ _ hf]
      have hh : histOf (addFolder st0 f0 ts) f = histOf st0 f := by
        unfold addFolder histOf
        by_cases hd : (mapLookup st0.playedTracks f0).isSome
        · simp [hd]
        · simp [hd, mapLookup_mapSet_ne _ _ _ _ hf]
      rw [ht, hh]
      exact ih f
  | play st0 f0 r hr ih =>
    exact play_hist_bound st0 f0 r ih
  | preload st0 f0 t hr ih =>
    intro f
    simpa [setOnDeck, histOf, tracksOf] using ih f
  | setDefault st0 f0 hr ih =>
    intro f
    unfold setDefaultFolder
    by_cases hd : (mapLookup st0.tracks f0).isSome
    · simpa [hd, histOf, tracksOf] using ih f
    · simpa [hd, histOf, tracksOf] using ih f
  | clear st0 hr ih =>
    intro f
    simp [clearLibrary, initialState, histOf, tracksOf, mapLookup]

theorem history_le_playlist_witness :
    (histOf initialState "A").card ≤ (tracksOf initialState "A").length :=
  history_le_playlist initialState Reachable.init "A"

/-- Claim C5 counterexample: ingest playlist "A" with two tracks, select
twice (history size 2), then re-ingest the same name with a single track.
`addFolder` replaces the track list but keeps the existing history, so the
history size 2 exceeds the playlist length 1 and the claimed invariant
fails. -/
theorem history_le_playlist_counterexample :
    ¬ ((histOf
          (addFolder
            (runPlays
              (addFolder initialState "A"
                [⟨"a", "", "A", 0, "A/a.mp3", "A"⟩,
                 ⟨"b", "", "A", 0, "A/b.mp3", "A"⟩])
              "A" [0, 0]).1
            "A" [⟨"a", "", "A", 0, "A/a.mp3", "A"⟩])
          "A").card
        ≤ (tracksOf
            (addFolder
              (runPlays
                (addFolder initialState "A"
                  [⟨"a", "", "A", 0, "A/a.mp3", "A"⟩,
                   ⟨"b", "", "A", 0, "A/b.mp3", "A"⟩])
                "A" [0, 0]).1
              "A" [⟨"a", "", "A", 0, "A/a.mp3", "A"⟩])
            "A").length) := by
  decide

theorem seek_when_paused_updates_offset_witness :
    getCurrentTime
      (seekTo
        { hasContext := true, currentSource := some ⟨0, 30, 1⟩,
          nextSource := none, currentBuffer := some ⟨0, 30, 1⟩,
          nextBuffer := none, crossfadeDuration := 2, currentStartTime := 0,
          currentPlaybackTime := 7, currentDuration := 30, volume := 1,
          normalizationEnabled := true, playing := false, gainValue := 1,
          crossfade := none }
        5 0) 0 = 5 :=
  seek_when_paused_updates_offset _ 5 0 0 rfl (by decide) rfl

end DJ
